import Mathlib

/-!
# networkcorruption: pattern generation, mismatch detection, classification, throughput

A shallow embedding of the parts of `evanj/networkcorruption` that generate byte
patterns (`datautil.RandomFiller`, `fillWithPattern`), compare buffers
(`datautil.MatchWithErrors`), classify the mismatches of the UDP echo client
(`runClient` in `udpecho.go`) and count packets (`packetTimer.increment`).

Conventions of the embedding:

* a Go `[]byte` is a `List Byte`, with `Byte = Fin 256`; `byte(x)` keeps `x % 256`;
* a Go `for i := range buf` loop is `forRange`/`loopRange` over the indices
  `0 .. len(buf) - 1`, the loop body being a function of the index and the loop state;
* reading `buf[i]` outside the slice, dividing by zero and `panic(...)` are runtime
  panics: fallible code returns `Except Panic _`;
* what is written to standard output is returned as a list of structured lines;
* Go `int`/`int64` arithmetic wraps at 64 bits (`wrapInt64`);
* `math/rand` and the clock are not part of the repository: the generator is a parameter
  (`RandSource`), and `time.Now()` is a parameter giving the successive clock readings.
-/

namespace NetworkCorruption

/-- A Go `byte`. -/
abbrev Byte := Fin 256

/-- Go's conversion `byte(x)` of a non-negative integer: the low eight bits. -/
def toByte (x : Nat) : Byte := ⟨x % 256, Nat.mod_lt x (by decide)⟩

/-- Go's bitwise complement `^b` of a byte. -/
def bitNot (b : Byte) : Byte := b ^^^ 255

/-- Runtime panics of the modelled code. -/
inductive Panic where
  /-- Indexing a slice of length `length` at `index`. -/
  | indexOutOfRange (index length : Nat)
  /-- Integer division or remainder by zero. -/
  | divideByZero
  /-- The text of `panic("unsupported mode: " + strconv.Itoa(int(conf.expectedMode)))`. -/
  | unsupportedMode (mode : Int)
  /-- The text of `panic("special address offset!")`. -/
  | specialAddressOffset
  /-- The text of `panic(fmt.Sprintf("different kind of corruption at %d 0x%02x != 0x%02x",
  offset, outBuf[offset], inBuf[offset]))`. -/
  | differentKindOfCorruption (offset : Nat) (sent received : Byte)
  deriving DecidableEq, Repr

/-- Reading `buf[i]`: a panic when `i` is not an index of `buf`. -/
def index (buf : List Byte) (i : Nat) : Except Panic Byte :=
  match buf[i]? with
  | some b => .ok b
  | none => .error (.indexOutOfRange i buf.length)

/-- A `for i := range ...` loop whose body may panic: `n` iterations are left, the next
index is `i`, and `a` is the loop state. -/
def forRange {α : Type} (body : Nat → α → Except Panic α) : Nat → Nat → α → Except Panic α
  | 0, _, a => .ok a
  | n + 1, i, a =>
    match body i a with
    | .error e => .error e
    | .ok a' => forRange body n (i + 1) a'

/-- A `for i := range ...` loop whose body cannot panic. -/
def loopRange {α : Type} (body : Nat → α → α) : Nat → Nat → α → α
  | 0, _, a => a
  | n + 1, i, a => loopRange body n (i + 1) (body i a)

/-- Go's 64-bit two's complement wrap-around of an integer result. -/
def wrapInt64 (x : Int) : Int := (x + 2 ^ 63) % 2 ^ 64 - 2 ^ 63

/-! ## datautil/datautil.go -/

namespace datautil

/-- The part of `math/rand` that `RandomFiller` uses: the state of a `*rand.Rand`,
`rand.New(rand.NewSource(seed))`, and `Int31`, which returns a value and the next state.
The generator itself belongs to the Go standard library. -/
structure RandSource where
  /-- The state of the generator. -/
  State : Type
  /-- The state made by `rand.New(rand.NewSource(seed))`. -/
  newSource : Int → State
  /-- One call of `Int31`. -/
  int31 : State → Nat × State

/-- The struct `RandomFiller`. -/
structure RandomFiller (R : RandSource) where
  rng : R.State

/-- `NewRandomFiller(seed)`. -/
def NewRandomFiller (R : RandSource) (seed : Int) : RandomFiller R :=
  ⟨R.newSource seed⟩

/-- The body of the loop of `Fill`: `buf[i] = byte(f.rng.Int31())`. -/
def RandomFiller.fillBody (R : RandSource) (i : Nat) (st : List Byte × R.State) :
    List Byte × R.State :=
  ((st.1).set i (toByte (R.int31 st.2).1), (R.int31 st.2).2)

/-- `(f *RandomFiller) Fill(buf)`: the buffer and the filler after the call. -/
def RandomFiller.Fill {R : RandSource} (f : RandomFiller R) (buf : List Byte) :
    List Byte × RandomFiller R :=
  let st := loopRange (RandomFiller.fillBody R) buf.length 0 (buf, f.rng)
  (st.1, ⟨st.2⟩)

/-- A line written to standard output by `MatchWithErrors`. -/
inductive MatchLine where
  /-- `ERROR: received length=%d; expected=%d`. -/
  | lengthError (received expected : Nat)
  /-- `ERROR: byte at position %d (0x%x) should be 0x%02x; is actually 0x%02x`. -/
  | byteError (position : Nat) (expected actual : Byte)
  /-- `Incorrect data:` and the hex dump of `in`, `Expected data:` and that of `expected`. -/
  | dump (incorrect expected : List Byte)
  deriving DecidableEq, Repr

/-- The struct `MismatchDetails`. -/
structure MismatchDetails where
  offsets : List Nat
  deriving DecidableEq, Repr

/-- `(m *MismatchDetails) HasErrors()`. -/
def MismatchDetails.HasErrors (m : MismatchDetails) : Bool :=
  decide (m.offsets.length > 0)

/-- `(m *MismatchDetails) Offsets()`. -/
def MismatchDetails.Offsets (m : MismatchDetails) : List Nat :=
  m.offsets

/-- The variables of `MatchWithErrors`: `isValid`, `result` and the output so far. -/
structure MatchState where
  isValid : Bool
  result : MismatchDetails
  out : List MatchLine
  deriving DecidableEq, Repr

/-- The body of `for i, b := range in` in `MatchWithErrors`; `b` is `in[i]`, and
`expected[i]` panics when `expected` is shorter than `in`. -/
def matchBody (inBuf expected : List Byte) (i : Nat) (st : MatchState) :
    Except Panic MatchState :=
  match index inBuf i with
  | .error e => .error e
  | .ok b =>
    match index expected i with
    | .error e => .error e
    | .ok x =>
      if b ≠ x then
        .ok ⟨false, ⟨st.result.offsets ++ [i]⟩, st.out ++ [.byteError i x b]⟩
      else
        .ok st

/-- The variables of `MatchWithErrors` before its loop: `isValid := true`, cleared with
the line `ERROR: received length=...` when `len(in) != len(expected)`, and
`result := MismatchDetails{}`. -/
def matchStart (inBuf expected : List Byte) : MatchState :=
  if inBuf.length ≠ expected.length then
    ⟨false, ⟨[]⟩, [.lengthError inBuf.length expected.length]⟩
  else
    ⟨true, ⟨[]⟩, []⟩

/-- `MatchWithErrors(in, expected, dumpOnError)`: the report and the lines written, or
the panic of an out-of-range `expected[i]`. -/
def MatchWithErrors (inBuf expected : List Byte) (dumpOnError : Bool) :
    Except Panic (MismatchDetails × List MatchLine) :=
  match forRange (matchBody inBuf expected) inBuf.length 0 (matchStart inBuf expected) with
  | .error e => .error e
  | .ok st =>
    if !st.isValid && dumpOnError then
      .ok (st.result, st.out ++ [.dump inBuf expected])
    else
      .ok (st.result, st.out)

/-- The state of the generator after `k` calls of `Int31` from the state `s`. -/
def RandSource.advance (R : RandSource) (s : R.State) : Nat → R.State
  | 0 => s
  | k + 1 => (R.int31 (R.advance s k)).2

/-- The byte made from the `k`-th next call of `Int31` (counted from 0) in the state `s`. -/
def RandSource.byteAt (R : RandSource) (s : R.State) (k : Nat) : Byte :=
  toByte (R.int31 (R.advance s k)).1

/-- A sequence of `Fill` calls on one filler, one call for each of the given buffers in
turn: the contents of the buffers after their calls, and the filler at the end. -/
def fillCalls {R : RandSource} (f : RandomFiller R) :
    List (List Byte) → List (List Byte) × RandomFiller R
  | [] => ([], f)
  | buf :: rest =>
    let r := f.Fill buf
    let rs := fillCalls r.2 rest
    (r.1 :: rs.1, rs.2)

end datautil

open datautil

/-! ## packetTimer (udpdata.go and udpecho.go carry the same definition) -/

/-- The constant `packetPrint`. -/
def packetPrint : Int := 60000

/-- The struct `packetTimer`; a `time.Time` is a number of nanoseconds. -/
structure packetTimer where
  periodStart : Int
  packets : Int
  bytes : Int
  totalPackets : Int
  deriving DecidableEq, Repr

/-- The statistics line `%d packets %d bytes in %.1f s = %.1f kB/s = %.3f Gbits/s`: the
packet count, the byte count and the elapsed time it is computed from (the two rates are
floating-point functions of `bytes` and `elapsed`). -/
structure StatLine where
  packets : Int
  bytes : Int
  elapsed : Int
  deriving DecidableEq, Repr

/-- What surrounds a `packetTimer`: how many times the clock has been read, and the
statistics lines written so far. -/
structure TimerWorld where
  reads : Nat
  out : List StatLine
  deriving DecidableEq, Repr

/-- The zero value `packetTimer{}`, no clock reading made and nothing written. -/
def packetTimer.zero : packetTimer × TimerWorld :=
  (⟨0, 0, 0, 0⟩, ⟨0, []⟩)

/-- `(p *packetTimer) increment(bytes)`; `now k` is the result of the `k`-th call of
`time.Now()`. -/
def packetTimer.increment (now : Nat → Int) (st : packetTimer × TimerWorld) (bytes : Int) :
    packetTimer × TimerWorld :=
  let p := st.1
  let w := st.2
  let periodStart := if p.packets = 0 then now w.reads else p.periodStart
  let reads := if p.packets = 0 then w.reads + 1 else w.reads
  let packets := wrapInt64 (p.packets + 1)
  let totalPackets := wrapInt64 (p.totalPackets + 1)
  let total := wrapInt64 (p.bytes + bytes)
  if packets.tmod packetPrint = 0 then
    let elapsed := now reads - periodStart
    (⟨now (reads + 1), 0, 0, totalPackets⟩, ⟨reads + 2, w.out ++ [⟨packets, total, elapsed⟩]⟩)
  else
    (⟨periodStart, packets, total, totalPackets⟩, ⟨reads, w.out⟩)

/-- The calls `increment(b_1)`, ..., `increment(b_n)` in turn. -/
def packetTimer.run (now : Nat → Int) (st : packetTimer × TimerWorld) (calls : List Int) :
    packetTimer × TimerWorld :=
  calls.foldl (packetTimer.increment now) st

/-- No addition of the call `increment(bytes)` leaves the range of a 64-bit integer. -/
def packetTimer.inRange (p : packetTimer) (bytes : Int) : Prop :=
  (-(2 ^ 63) ≤ p.packets + 1 ∧ p.packets + 1 < 2 ^ 63) ∧
  (-(2 ^ 63) ≤ p.totalPackets + 1 ∧ p.totalPackets + 1 < 2 ^ 63) ∧
  (-(2 ^ 63) ≤ p.bytes + bytes ∧ p.bytes + bytes < 2 ^ 63)

/-- No integer overflow happens in the calls `increment(b_1)`, ..., `increment(b_n)`. -/
def packetTimer.noOverflow (now : Nat → Int) :
    packetTimer × TimerWorld → List Int → Prop
  | _, [] => True
  | st, b :: rest =>
    packetTimer.inRange st.1 b ∧ packetTimer.noOverflow now (packetTimer.increment now st b) rest

/-- Whether a call stays in range can be computed. -/
instance packetTimer.decInRange (p : packetTimer) (bytes : Int) :
    Decidable (packetTimer.inRange p bytes) := by
  unfold packetTimer.inRange
  infer_instance

/-- Whether a sequence of calls is free of overflow can be computed. -/
instance packetTimer.decNoOverflow (now : Nat → Int) :
    ∀ (st : packetTimer × TimerWorld) (calls : List Int),
      Decidable (packetTimer.noOverflow now st calls)
  | _, [] => isTrue trivial
  | st, b :: rest =>
    @instDecidableAnd _ _ (packetTimer.decInRange st.1 b)
      (packetTimer.decNoOverflow now (packetTimer.increment now st b) rest)

/-! ## udpdata.go -/

namespace udpdata

/-- The type `mode`, an `int`. -/
abbrev mode := Int

/-- The constant `modeSequence`. -/
def modeSequence : mode := 0

/-- The constant `modeFill`. -/
def modeFill : mode := 1

/-- The constant `modeRandom`. -/
def modeRandom : mode := 2

/-- The struct `config`. -/
structure config where
  expectedMode : mode
  randomSeed : Int
  expectedBytes : List Byte
  disableCsum : Bool
  dumpOnError : Bool
  randomLength : Bool
  packetLength : Int
  orMask : Byte
  deriving DecidableEq, Repr

/-- The body of `for i, b := range buf` in the random branch:
`buf[i] = b | conf.orMask`. -/
def orBody (conf : config) (i : Nat) (buf : List Byte) : List Byte :=
  match buf[i]? with
  | some b => buf.set i (b ||| conf.orMask)
  | none => buf

/-- The body of the inner `for i := range buf` of `case modeFill`:
`buf[i] = conf.expectedBytes[i%len(conf.expectedBytes)]`. -/
def fillBody (conf : config) (i : Nat) (buf : List Byte) : Except Panic (List Byte) :=
  if conf.expectedBytes.length = 0 then
    .error .divideByZero
  else
    match index conf.expectedBytes (i % conf.expectedBytes.length) with
    | .error e => .error e
    | .ok b => .ok (buf.set i b)

/-- The body of the outer `for i, _ := range buf`: the `switch conf.expectedMode`. -/
def patternBody (conf : config) (i : Nat) (buf : List Byte) : Except Panic (List Byte) :=
  if conf.expectedMode = modeSequence then
    .ok (buf.set i (toByte i))
  else if conf.expectedMode = modeFill then
    forRange (fillBody conf) buf.length 0 buf
  else
    .error (.unsupportedMode conf.expectedMode)

/-- `fillWithPattern(buf, conf)`: the buffer after the call, or the panic. -/
def fillWithPattern (R : RandSource) (buf : List Byte) (conf : config) :
    Except Panic (List Byte) :=
  if conf.expectedMode = modeRandom then
    let filled := ((NewRandomFiller R conf.randomSeed).Fill buf).1
    if conf.orMask ≠ 0 then
      .ok (loopRange (orBody conf) filled.length 0 filled)
    else
      .ok filled
  else
    forRange (patternBody conf) buf.length 0 buf

end udpdata

/-! ## udpecho.go -/

namespace udpecho

/-- The struct `configuration`. -/
structure configuration where
  packetsPerSecond : Int
  packetLength : Int
  errorLimit : Int
  deriving DecidableEq, Repr

/-- A line written by the check of an echoed packet in `runClient`. -/
inductive EchoLine where
  /-- A line written by `MatchWithErrors`. -/
  | detail (line : MatchLine)
  /-- `%d errors in %d packets`. -/
  | errorsInPackets (errors totalPackets : Int)
  /-- `hit the error limit`. -/
  | hitTheErrorLimit
  deriving DecidableEq, Repr

/-- How the check of an echoed packet ends. -/
inductive Verdict where
  /-- The iteration goes on to `time.Sleep` and the loop continues, with this `errors`. -/
  | proceed (errors : Int)
  /-- `return nil` after `hit the error limit`, with this `errors`. -/
  | returnNil (errors : Int)
  /-- The process aborts with a panic. -/
  | abort (p : Panic)
  deriving DecidableEq, Repr

/-- The loop `for _, offset := range mismatches.Offsets()` of `runClient`. -/
def classify (outBuf inBuf : List Byte) : List Nat → Except Panic Unit
  | [] => .ok ()
  | offset :: rest =>
    if offset % 16 ≠ 7 then
      .error .specialAddressOffset
    else
      match index outBuf offset with
      | .error e => .error e
      | .ok sent =>
        match index inBuf offset with
        | .error e => .error e
        | .ok received =>
          if sent &&& bitNot 4 ≠ received then
            .error (.differentKindOfCorruption offset sent received)
          else
            classify outBuf inBuf rest

/-- The check of an echoed packet in `runClient`, from
`mismatches := datautil.MatchWithErrors(inBuf, outBuf, false)` to the end of
`if mismatches.HasErrors()`; `errors` and `totalPackets` are the values of `errors` and
`timer.totalPackets` before it. -/
def checkEcho (config : configuration) (errors totalPackets : Int)
    (inBuf outBuf : List Byte) : Verdict × List EchoLine :=
  match MatchWithErrors inBuf outBuf false with
  | .error e => (.abort e, [])
  | .ok (mismatches, lines) =>
    if mismatches.HasErrors then
      let errors1 := wrapInt64 (errors + 1)
      let out := lines.map EchoLine.detail ++ [.errorsInPackets errors1 totalPackets]
      match classify outBuf inBuf mismatches.Offsets with
      | .error e => (.abort e, out)
      | .ok _ =>
        if errors1 ≥ config.errorLimit then
          (.returnNil errors1, out ++ [.hitTheErrorLimit])
        else
          (.proceed errors1, out)
    else
      (.proceed errors, lines.map EchoLine.detail)

end udpecho

/-! ## tcpcorrupt.go -/

namespace tcpcorrupt

/-- The constant `patternSeed`, the seed of the fillers of `runClient` and of
`serverConnection`. -/
def patternSeed : Int := 0x1234567890abcdef

/-- The constant `maxPacketLength`: `mtu - tcpOverhead`. -/
def maxPacketLength : Nat := 1500 - (20 + 20 + 12)

end tcpcorrupt

/-- A small linear congruential generator, used to run the definitions on concrete
inputs in place of `math/rand`. -/
def lcg : RandSource where
  State := Nat
  newSource := fun seed => seed.toNat % 2147483648
  int31 := fun s => (((1103515245 * s + 12345) % 2147483648),
    (1103515245 * s + 12345) % 2147483648)

/-! ## Loops -/

/-- Invariant rule for a loop that may panic: when every iteration started in a state
that satisfies the invariant succeeds and keeps it, the loop succeeds and keeps it. -/
theorem forRange_inv {α : Type} (body : Nat → α → Except Panic α) (Inv : Nat → α → Prop) :
    ∀ (n i : Nat) (a : α), Inv i a →
      (∀ j b, i ≤ j → j < i + n → Inv j b → ∃ b', body j b = .ok b' ∧ Inv (j + 1) b') →
      ∃ a', forRange body n i a = .ok a' ∧ Inv (i + n) a' := by
  intro n
  induction n with
  | zero =>
    intro i a h _
    exact ⟨a, rfl, by simpa using h⟩
  | succ n ih =>
    intro i a h step
    obtain ⟨b, hb, hinv⟩ := step i a (Nat.le_refl i) (by omega) h
    obtain ⟨c, hc, hinv'⟩ := ih (i + 1) b hinv
      (fun j d h1 h2 hd => step j d (by omega) (by omega) hd)
    refine ⟨c, ?_, ?_⟩
    · simp only [forRange, hb]
      exact hc
    · have e : i + (n + 1) = i + 1 + n := by omega
      rw [e]
      exact hinv'

/-- Invariant rule for a loop that cannot panic. -/
theorem loopRange_inv {α : Type} (body : Nat → α → α) (Inv : Nat → α → Prop) :
    ∀ (n i : Nat) (a : α), Inv i a →
      (∀ j b, i ≤ j → j < i + n → Inv j b → Inv (j + 1) (body j b)) →
      Inv (i + n) (loopRange body n i a) := by
  intro n
  induction n with
  | zero =>
    intro i a h _
    simpa [loopRange] using h
  | succ n ih =>
    intro i a h step
    have h1 := ih (i + 1) (body i a) (step i a (Nat.le_refl i) (by omega) h)
      (fun j d h1 h2 hd => step j d (by omega) (by omega) hd)
    have e : i + (n + 1) = i + 1 + n := by omega
    rw [e]
    simpa [loopRange] using h1

/-- Failure rule for a loop: when the iterations before index `m` succeed and keep the
invariant and the iteration at `m` panics, the loop panics in the same way. -/
theorem forRange_error {α : Type} (body : Nat → α → Except Panic α) (Inv : Nat → α → Prop)
    (e : Panic) (m : Nat) :
    ∀ (n i : Nat) (a : α), Inv i a → i ≤ m → m < i + n →
      (∀ j b, i ≤ j → j < m → Inv j b → ∃ b', body j b = .ok b' ∧ Inv (j + 1) b') →
      (∀ b, Inv m b → body m b = .error e) →
      forRange body n i a = .error e := by
  intro n
  induction n with
  | zero =>
    intro i a _ h1 h2 _ _
    omega
  | succ n ih =>
    intro i a h h1 h2 step fail
    by_cases hm : i = m
    · subst hm
      simp only [forRange, fail a h]
    · obtain ⟨b, hb, hinv⟩ := step i a (Nat.le_refl i) (by omega) h
      simp only [forRange, hb]
      exact ih (i + 1) b hinv (by omega) (by omega)
        (fun j d h3 h4 hd => step j d (by omega) h4 hd) fail

/-- Reading at an index of the buffer gives the byte there. -/
theorem index_ok (buf : List Byte) (i : Nat) (b : Byte) (h : buf[i]? = some b) :
    index buf i = .ok b := by
  simp [index, h]

/-- Reading at or after the length of the buffer panics. -/
theorem index_error (buf : List Byte) (i : Nat) (h : buf.length ≤ i) :
    index buf i = .error (.indexOutOfRange i buf.length) := by
  simp [index, List.getElem?_eq_none h]

/-- A list of length `n` whose entry at every index `k` is `g k` is the list of the
`g k`. -/
theorem eq_map_range {α : Type} (g : Nat → α) (n : Nat) (b : List α)
    (hlen : b.length = n) (h : ∀ k, k < n → b[k]? = some (g k)) :
    b = (List.range n).map g := by
  apply List.ext_getElem?
  intro k
  by_cases hk : k < n
  · rw [h k hk, List.getElem?_map, List.getElem?_range hk]
    rfl
  · have h1 : b[k]? = none := List.getElem?_eq_none (by omega)
    have h2 : ((List.range n).map g)[k]? = none :=
      List.getElem?_eq_none (by simp; omega)
    rw [h1, h2]

/-- Writing `v` at index `j` keeps the entries written before and adds the one at `j`. -/
theorem set_written {α : Type} (g : Nat → α) (b : List α) (j : Nat) (v : α)
    (hj : j < b.length) (hv : v = g j) (h : ∀ k, k < j → b[k]? = some (g k)) :
    ∀ k, k < j + 1 → (b.set j v)[k]? = some (g k) := by
  intro k hk
  by_cases e : k = j
  · subst e
    rw [List.getElem?_set_self hj, hv]
  · rw [List.getElem?_set_ne (fun h' => e h'.symm)]
    exact h k (by omega)

/-! ## RandomFiller -/

namespace datautil

/-- Advancing by `a` calls and then by `b` calls is advancing by `a + b` calls. -/
theorem RandSource.advance_add (R : RandSource) (s : R.State) (a b : Nat) :
    R.advance (R.advance s a) b = R.advance s (a + b) := by
  induction b with
  | zero => rfl
  | succ b ih =>
    show (R.int31 (R.advance (R.advance s a) b)).2 = (R.int31 (R.advance s (a + b))).2
    rw [ih]

/-- The bytes after `a` calls are the bytes from position `a` on. -/
theorem RandSource.byteAt_advance (R : RandSource) (s : R.State) (a k : Nat) :
    R.byteAt (R.advance s a) k = R.byteAt s (a + k) := by
  unfold RandSource.byteAt
  rw [RandSource.advance_add]

/-- What `Fill` does: the buffer becomes the next `len(buf)` bytes of the generator,
whatever it held, and the generator has made `len(buf)` calls of `Int31`. -/
theorem RandomFiller.Fill_eq {R : RandSource} (f : RandomFiller R) (buf : List Byte) :
    f.Fill buf =
      ((List.range buf.length).map (R.byteAt f.rng), ⟨R.advance f.rng buf.length⟩) := by
  have key := loopRange_inv (RandomFiller.fillBody R)
    (fun j (st : List Byte × R.State) =>
      st.1.length = buf.length ∧ st.2 = R.advance f.rng j ∧
        ∀ k, k < j → st.1[k]? = some (R.byteAt f.rng k))
    buf.length 0 (buf, f.rng) ⟨rfl, rfl, fun k hk => absurd hk (Nat.not_lt_zero k)⟩
    (by
      intro j st _ hj ⟨h1, h2, h3⟩
      refine ⟨?_, ?_, ?_⟩
      · simp [RandomFiller.fillBody, h1]
      · simp [RandomFiller.fillBody, h2, RandSource.advance]
      · exact set_written (R.byteAt f.rng) st.1 j _ (by omega)
          (by simp [RandSource.byteAt, h2]) h3)
  obtain ⟨h1, h2, h3⟩ := key
  simp only [Nat.zero_add] at h2 h3
  have hb := eq_map_range (R.byteAt f.rng) buf.length _ h1 h3
  unfold RandomFiller.Fill
  simp only
  rw [h2]
  exact Prod.ext hb rfl

/-- A sequence of `Fill` calls depends on the lengths of the buffers only. -/
theorem fillCalls_congr {R : RandSource} :
    ∀ (bufs1 bufs2 : List (List Byte)) (f : RandomFiller R),
      bufs1.map List.length = bufs2.map List.length →
      fillCalls f bufs1 = fillCalls f bufs2 := by
  intro bufs1
  induction bufs1 with
  | nil =>
    intro bufs2 f h
    cases bufs2 with
    | nil => rfl
    | cons b t => simp at h
  | cons a s ih =>
    intro bufs2 f h
    cases bufs2 with
    | nil => simp at h
    | cons b t =>
      simp only [List.map_cons, List.cons.injEq] at h
      have e : f.Fill a = f.Fill b := by
        rw [RandomFiller.Fill_eq, RandomFiller.Fill_eq, h.1]
      simp only [fillCalls, e, ih t (f.Fill b).2 h.2]

/-- The bytes of a sequence of `Fill` calls, concatenated, are the next bytes of the
generator, as many as the buffers are long together, and the generator has made that
many calls of `Int31`. -/
theorem fillCalls_flatten {R : RandSource} :
    ∀ (bufs : List (List Byte)) (f : RandomFiller R),
      (fillCalls f bufs).1.flatten =
          (List.range (bufs.map List.length).sum).map (R.byteAt f.rng) ∧
        (fillCalls f bufs).2.rng = R.advance f.rng (bufs.map List.length).sum := by
  intro bufs
  induction bufs with
  | nil =>
    intro f
    exact ⟨rfl, rfl⟩
  | cons a t ih =>
    intro f
    obtain ⟨h1, h2⟩ := ih (f.Fill a).2
    simp only [fillCalls, List.flatten_cons, List.map_cons, List.sum_cons]
    rw [h1, h2, RandomFiller.Fill_eq]
    simp only
    constructor
    · rw [List.range_add, List.map_append, List.map_map]
      congr 1
      apply List.map_congr_left
      intro k _
      exact RandSource.byteAt_advance R _ _ k
    · exact RandSource.advance_add R _ _ _

end datautil

/-! ## MatchWithErrors -/

namespace datautil

/-- One more index in the list of the differing indices below `j`. -/
theorem filter_range_succ (p : Nat → Bool) (j : Nat) :
    (List.range (j + 1)).filter p =
      (List.range j).filter p ++ (if p j then [j] else []) := by
  rw [List.range_succ, List.filter_append]
  by_cases h : p j <;> simp [List.filter, h]

/-- The loop of `MatchWithErrors` when `in` is not longer than `expected`: it ends, the
offsets recorded are the indices of `in` at which the buffers differ, in ascending
order, `isValid` is cleared exactly when one was recorded, and the lines already written
stay. -/
theorem matchLoop_ok (inBuf expected : List Byte) (hle : inBuf.length ≤ expected.length)
    (st0 : MatchState) :
    ∃ st, forRange (matchBody inBuf expected) inBuf.length 0 st0 = .ok st ∧
      st.result.offsets = st0.result.offsets ++
        (List.range inBuf.length).filter (fun i => decide (inBuf[i]? ≠ expected[i]?)) ∧
      st.isValid = (st0.isValid &&
        ((List.range inBuf.length).filter
          (fun i => decide (inBuf[i]? ≠ expected[i]?))).isEmpty) ∧
      ∃ t, st.out = st0.out ++ t := by
  have key := forRange_inv (matchBody inBuf expected)
    (fun j st =>
      st.result.offsets = st0.result.offsets ++
        (List.range j).filter (fun i => decide (inBuf[i]? ≠ expected[i]?)) ∧
      st.isValid = (st0.isValid &&
        ((List.range j).filter (fun i => decide (inBuf[i]? ≠ expected[i]?))).isEmpty) ∧
      ∃ t, st.out = st0.out ++ t)
    inBuf.length 0 st0 ⟨by simp, by simp, [], by simp⟩
    (by
      intro j st _ hj ⟨h1, h2, t, h3⟩
      have hj1 : j < inBuf.length := by omega
      have hj2 : j < expected.length := by omega
      have e1 : inBuf[j]? = some inBuf[j] := List.getElem?_eq_getElem hj1
      have e2 : expected[j]? = some expected[j] := List.getElem?_eq_getElem hj2
      simp only [matchBody, index_ok inBuf j _ e1, index_ok expected j _ e2,
        filter_range_succ]
      by_cases hne : inBuf[j] = expected[j]
      · refine ⟨st, by simp [hne], ?_, ?_, t, h3⟩
        · simp [e1, e2, hne, h1]
        · simp [e1, e2, hne, h2]
      · refine ⟨_, by simp [hne]; rfl, ?_, ?_, t ++ [.byteError j expected[j] inBuf[j]], ?_⟩
        · simp [e1, e2, hne, h1]
        · simp [e1, e2, hne]
        · simp [h3])
  simpa using key

/-- `MatchWithErrors` after its loop: the report of the loop, and the dump when
`isValid` is cleared and `dumpOnError` is set. -/
theorem MatchWithErrors_of_loop (inBuf expected : List Byte) (dumpOnError : Bool)
    (st : MatchState)
    (h : forRange (matchBody inBuf expected) inBuf.length 0 (matchStart inBuf expected) =
      .ok st) :
    MatchWithErrors inBuf expected dumpOnError =
      .ok (st.result, st.out ++
        (if (!st.isValid && dumpOnError) = true then [.dump inBuf expected] else [])) := by
  unfold MatchWithErrors
  rw [h]
  by_cases hd : (!st.isValid && dumpOnError) = true
  · simp only [hd, if_true]
  · simp [hd]

/-- `MatchWithErrors` when `in` is not longer than `expected`: it returns, the offsets
of the report are the indices of `in` at which the buffers differ, in ascending order,
a length mismatch is written to the output, and nothing is written for equal buffers. -/
theorem MatchWithErrors_ok (inBuf expected : List Byte) (dumpOnError : Bool)
    (hle : inBuf.length ≤ expected.length) :
    ∃ out, MatchWithErrors inBuf expected dumpOnError =
        .ok (⟨(List.range inBuf.length).filter
          (fun i => decide (inBuf[i]? ≠ expected[i]?))⟩, out) ∧
      (inBuf.length ≠ expected.length →
        MatchLine.lengthError inBuf.length expected.length ∈ out) ∧
      (inBuf = expected → out = []) := by
  obtain ⟨st, h1, h2, h3, t, h4⟩ := matchLoop_ok inBuf expected hle (matchStart inBuf expected)
  have hoff : (matchStart inBuf expected).result.offsets = [] := by
    unfold matchStart
    split <;> rfl
  have hres : st.result = ⟨(List.range inBuf.length).filter
      (fun i => decide (inBuf[i]? ≠ expected[i]?))⟩ := by
    cases st with
    | mk v r o =>
      cases r with
      | mk offs => simpa [hoff] using h2
  refine ⟨_, by rw [MatchWithErrors_of_loop inBuf expected dumpOnError st h1, hres], ?_, ?_⟩
  · intro hlen
    have : (matchStart inBuf expected).out =
        [.lengthError inBuf.length expected.length] := by
      simp [matchStart, hlen]
    simp [h4, this]
  · intro heq
    subst heq
    have hs : matchStart inBuf inBuf = ⟨true, ⟨[]⟩, []⟩ := by
      simp [matchStart]
    have hv : st.isValid = true := by
      rw [h3, hs]
      simp
    have key := forRange_inv (matchBody inBuf inBuf) (fun _ s => s.out = [])
      inBuf.length 0 (matchStart inBuf inBuf) (by rw [hs])
      (by
        intro j s _ hj hout
        have hj1 : j < inBuf.length := by omega
        have e1 : inBuf[j]? = some inBuf[j] := List.getElem?_eq_getElem hj1
        exact ⟨s, by simp [matchBody, index_ok inBuf j _ e1], hout⟩)
    obtain ⟨s, hs1, hs2⟩ := key
    rw [h1] at hs1
    cases hs1
    simp [hs2, hv]

/-- The report of `MatchWithErrors` for buffers of equal length: strictly ascending
offsets, which are the indices at which the buffers differ. -/
theorem MatchWithErrors_report (inBuf expected : List Byte) (dumpOnError : Bool)
    (hlen : inBuf.length = expected.length) :
    ∃ m out, MatchWithErrors inBuf expected dumpOnError = .ok (m, out) ∧
      m.Offsets.Sorted (· < ·) ∧
      (∀ i, i ∈ m.Offsets ↔ i < inBuf.length ∧ inBuf[i]? ≠ expected[i]?) ∧
      (m.HasErrors = true ↔ ∃ i, i < inBuf.length ∧ inBuf[i]? ≠ expected[i]?) ∧
      (inBuf = expected → m.Offsets = [] ∧ m.HasErrors = false) := by
  obtain ⟨out, h1, _, _⟩ := MatchWithErrors_ok inBuf expected dumpOnError (by omega)
  have hmem : ∀ i, i ∈ (List.range inBuf.length).filter
      (fun i => decide (inBuf[i]? ≠ expected[i]?)) ↔
      i < inBuf.length ∧ inBuf[i]? ≠ expected[i]? := by
    intro i
    simp [List.mem_filter]
  refine ⟨_, out, h1, ?_, hmem, ?_, ?_⟩
  · exact (List.sorted_lt_range inBuf.length).filter _
  · simp only [MismatchDetails.HasErrors, decide_eq_true_eq, gt_iff_lt, List.length_pos]
    constructor
    · intro hne
      obtain ⟨i, hi⟩ := List.exists_mem_of_ne_nil _ hne
      exact ⟨i, (hmem i).1 hi⟩
    · intro ⟨i, hi⟩
      exact List.ne_nil_of_mem ((hmem i).2 hi)
  · intro heq
    subst heq
    simp [MismatchDetails.Offsets, MismatchDetails.HasErrors]

end datautil

/-! ## The classification of the echo client -/

namespace udpecho

/-- The buffers differ at an index of both exactly when the bytes there differ. -/
theorem differ_iff (inBuf outBuf : List Byte) (o : Nat) (h1 : o < inBuf.length)
    (h2 : o < outBuf.length) :
    inBuf[o]? ≠ outBuf[o]? ↔ inBuf.getD o 0 ≠ outBuf.getD o 0 := by
  simp [List.getD_eq_getElem?_getD, List.getElem?_eq_getElem h1,
    List.getElem?_eq_getElem h2]

/-- One iteration of the classification loop at an offset inside both buffers. -/
theorem classify_cons (outBuf inBuf : List Byte) (o : Nat) (rest : List Nat)
    (h1 : o < outBuf.length) (h2 : o < inBuf.length) :
    classify outBuf inBuf (o :: rest) =
      if o % 16 ≠ 7 then .error .specialAddressOffset
      else if outBuf.getD o 0 &&& bitNot 4 ≠ inBuf.getD o 0 then
        .error (.differentKindOfCorruption o (outBuf.getD o 0) (inBuf.getD o 0))
      else classify outBuf inBuf rest := by
  have e1 : outBuf[o]? = some (outBuf.getD o 0) := by
    simp [List.getD_eq_getElem?_getD, List.getElem?_eq_getElem h1]
  have e2 : inBuf[o]? = some (inBuf.getD o 0) := by
    simp [List.getD_eq_getElem?_getD, List.getElem?_eq_getElem h2]
  simp only [classify, index_ok outBuf o _ e1, index_ok inBuf o _ e2]

/-- The classification loop accepts exactly when every offset of the report has the
position `7 mod 16` and a received byte equal to the sent byte with bit 2 cleared. -/
theorem classify_ok_iff (outBuf inBuf : List Byte) :
    ∀ (l : List Nat), (∀ o, o ∈ l → o < outBuf.length ∧ o < inBuf.length) →
      (classify outBuf inBuf l = .ok () ↔
        ∀ o, o ∈ l → o % 16 = 7 ∧ inBuf.getD o 0 = outBuf.getD o 0 &&& bitNot 4) := by
  intro l
  induction l with
  | nil =>
    intro _
    simp [classify]
  | cons a t ih =>
    intro hl
    have ha := hl a (List.mem_cons_self a t)
    have iht := ih (fun o ho => hl o (List.mem_cons_of_mem a ho))
    rw [classify_cons outBuf inBuf a t ha.1 ha.2]
    by_cases h7 : a % 16 = 7
    · by_cases hb : outBuf.getD a 0 &&& bitNot 4 = inBuf.getD a 0
      · simp only [h7, hb, ne_eq, not_true_eq_false, if_false, iht, List.mem_cons,
          forall_eq_or_imp, true_and]
      · simp only [h7, hb, ne_eq, not_true_eq_false, if_false, not_false_eq_true, if_true]
        constructor
        · intro h
          cases h
        · intro h
          exact absurd (h a (List.mem_cons_self a t)).2.symm hb
    · simp only [h7, ne_eq, not_false_eq_true, if_true]
      constructor
      · intro h
        cases h
      · intro h
        exact absurd (h a (List.mem_cons_self a t)).1 h7

/-- The classification loop aborts at the lowest offset of the report that breaks the
signature: with `special address offset!` when its position is not `7 mod 16`, and
otherwise with `different kind of corruption`. -/
theorem classify_first_violation (outBuf inBuf : List Byte) :
    ∀ (l : List Nat), (∀ o, o ∈ l → o < outBuf.length ∧ o < inBuf.length) →
      l.Pairwise (· < ·) →
      ∀ o, o ∈ l →
        ¬ (o % 16 = 7 ∧ inBuf.getD o 0 = outBuf.getD o 0 &&& bitNot 4) →
        (∀ o', o' ∈ l → o' < o →
          o' % 16 = 7 ∧ inBuf.getD o' 0 = outBuf.getD o' 0 &&& bitNot 4) →
        classify outBuf inBuf l =
          if o % 16 ≠ 7 then .error .specialAddressOffset
          else .error (.differentKindOfCorruption o (outBuf.getD o 0) (inBuf.getD o 0)) := by
  intro l
  induction l with
  | nil =>
    intro _ _ o ho
    simp at ho
  | cons a t ih =>
    intro hl hs o ho hviol hbefore
    have ha := hl a (List.mem_cons_self a t)
    rw [classify_cons outBuf inBuf a t ha.1 ha.2]
    rw [List.pairwise_cons] at hs
    by_cases hk : a % 16 = 7 ∧ inBuf.getD a 0 = outBuf.getD a 0 &&& bitNot 4
    · have hoa : o ≠ a := fun e => hviol (e ▸ hk)
      have hot : o ∈ t := by
        rcases List.mem_cons.1 ho with e | e
        · exact absurd e hoa
        · exact e
      have := ih (fun x hx => hl x (List.mem_cons_of_mem a hx)) hs.2 o hot hviol
        (fun x hx hlt => hbefore x (List.mem_cons_of_mem a hx) hlt)
      simp only [hk.1, hk.2, ne_eq, not_true_eq_false, if_false, this]
    · have hoa : o = a := by
        rcases List.mem_cons.1 ho with e | e
        · exact e
        · exact absurd (hbefore a (List.mem_cons_self a t) (hs.1 o e)) hk
      subst hoa
      by_cases h7 : o % 16 = 7
      · have hb : ¬ outBuf.getD o 0 &&& bitNot 4 = inBuf.getD o 0 :=
          fun h => hk ⟨h7, h.symm⟩
        simp only [h7, hb, ne_eq, not_true_eq_false, if_false, not_false_eq_true, if_true]
      · simp only [h7, ne_eq, not_false_eq_true, if_true]

/-- The verdict of the check once `MatchWithErrors` has returned a report with errors:
the panic of the classification loop, or the count of one more error. -/
theorem checkEcho_of_report (config : configuration) (errors totalPackets : Int)
    (inBuf outBuf : List Byte) (m : MismatchDetails) (lines : List MatchLine)
    (h : MatchWithErrors inBuf outBuf false = .ok (m, lines)) (he : m.HasErrors = true) :
    (∀ e, classify outBuf inBuf m.Offsets = .error e →
      (checkEcho config errors totalPackets inBuf outBuf).1 = .abort e) ∧
    (classify outBuf inBuf m.Offsets = .ok () →
      (checkEcho config errors totalPackets inBuf outBuf).1 =
        if wrapInt64 (errors + 1) ≥ config.errorLimit then
          .returnNil (wrapInt64 (errors + 1))
        else .proceed (wrapInt64 (errors + 1))) := by
  constructor
  · intro e hc
    simp only [checkEcho, h, he, if_true, hc]
  · intro hc
    simp only [checkEcho, h, he, if_true, hc]
    split <;> rfl

/-- A byte that differs from the sent byte and is the sent byte with bit 2 cleared
differs from it by the bit `0x04` exactly. -/
theorem xor_of_cleared : ∀ s : Byte, s &&& bitNot 4 ≠ s → s ^^^ (s &&& bitNot 4) = 4 := by
  set_option maxRecDepth 100000 in decide

end udpecho

/-! ## fillWithPattern -/

namespace udpdata

/-- The loop of `fillWithPattern` in sequence mode writes `byte(i)` at every index. -/
theorem sequence_loop (conf : config) (buf : List Byte)
    (hmode : conf.expectedMode = modeSequence) :
    forRange (patternBody conf) buf.length 0 buf = .ok ((List.range buf.length).map toByte) := by
  have key := forRange_inv (patternBody conf)
    (fun j b => b.length = buf.length ∧ ∀ k, k < j → b[k]? = some (toByte k))
    buf.length 0 buf ⟨rfl, fun k hk => absurd hk (Nat.not_lt_zero k)⟩
    (by
      intro j b _ hj ⟨h1, h2⟩
      refine ⟨b.set j (toByte j), by simp [patternBody, hmode], by simp [h1], ?_⟩
      exact set_written toByte b j _ (by omega) rfl h2)
  obtain ⟨out, h1, h2, h3⟩ := key
  simp only [Nat.zero_add] at h3
  rw [h1, eq_map_range toByte buf.length out h2 h3]

/-- The inner loop of fixed-fill mode, with a non-empty pattern, writes the pattern
repeated at every index, whatever the buffer held. -/
theorem fill_loop (conf : config) (b : List Byte) (hpat : conf.expectedBytes ≠ []) :
    forRange (fillBody conf) b.length 0 b =
      .ok ((List.range b.length).map
        (fun i => conf.expectedBytes.getD (i % conf.expectedBytes.length) 0)) := by
  have hpos : 0 < conf.expectedBytes.length := List.length_pos.2 hpat
  have key := forRange_inv (fillBody conf)
    (fun j cur => cur.length = b.length ∧ ∀ k, k < j →
      cur[k]? = some (conf.expectedBytes.getD (k % conf.expectedBytes.length) 0))
    b.length 0 b ⟨rfl, fun k hk => absurd hk (Nat.not_lt_zero k)⟩
    (by
      intro j cur _ hj ⟨h1, h2⟩
      have hlt : j % conf.expectedBytes.length < conf.expectedBytes.length :=
        Nat.mod_lt j hpos
      have e : conf.expectedBytes[j % conf.expectedBytes.length]? =
          some (conf.expectedBytes.getD (j % conf.expectedBytes.length) 0) := by
        simp [List.getD_eq_getElem?_getD, List.getElem?_eq_getElem hlt]
      refine ⟨cur.set j (conf.expectedBytes.getD (j % conf.expectedBytes.length) 0), ?_,
        by simp [h1], ?_⟩
      · simp only [fillBody, Nat.ne_of_gt hpos, if_false, index_ok _ _ _ e]
      · exact set_written
          (fun i => conf.expectedBytes.getD (i % conf.expectedBytes.length) 0) cur j _
          (by omega) rfl h2)
  obtain ⟨out, h1, h2, h3⟩ := key
  simp only [Nat.zero_add] at h3
  rw [h1, eq_map_range _ b.length out h2 h3]

/-- The loop of `fillWithPattern` in fixed-fill mode, with a non-empty pattern, leaves the
pattern repeated in the buffer. -/
theorem pattern_loop (conf : config) (buf : List Byte) (hmode : conf.expectedMode = modeFill)
    (hpat : conf.expectedBytes ≠ []) :
    forRange (patternBody conf) buf.length 0 buf =
      .ok ((List.range buf.length).map
        (fun i => conf.expectedBytes.getD (i % conf.expectedBytes.length) 0)) := by
  have hne : conf.expectedMode ≠ modeSequence := by
    rw [hmode]
    decide
  have key := forRange_inv (patternBody conf)
    (fun j b => b.length = buf.length ∧ (0 < j → b = (List.range buf.length).map
      (fun i => conf.expectedBytes.getD (i % conf.expectedBytes.length) 0)))
    buf.length 0 buf ⟨rfl, fun h => absurd h (Nat.lt_irrefl 0)⟩
    (by
      intro j b _ _ ⟨h1, _⟩
      refine ⟨(List.range buf.length).map
        (fun i => conf.expectedBytes.getD (i % conf.expectedBytes.length) 0), ?_, by simp,
        fun _ => rfl⟩
      unfold patternBody
      rw [if_neg hne, if_pos hmode, fill_loop conf b hpat, h1])
  obtain ⟨out, h1, h2, h3⟩ := key
  rw [h1]
  simp only [Nat.zero_add] at h3
  by_cases hz : 0 < buf.length
  · rw [h3 hz]
  · have h0 : buf.length = 0 := by omega
    rw [h0] at h2
    rw [List.length_eq_zero.1 h2, h0]
    rfl

end udpdata

/-- **C1.** For buffers `in` and `expected` of equal length and either value of
`dumpOnError`, `MatchWithErrors` returns a report whose `Offsets()` are strictly
ascending and are exactly the indices at which the buffers differ, and `HasErrors()` is
true exactly when there is such an index; the report of a buffer and an identical copy
is empty. -/
theorem MatchWithErrors_equal_length (inBuf expected : List Byte) (dumpOnError : Bool)
    (hlen : inBuf.length = expected.length) :
    ∃ m out, MatchWithErrors inBuf expected dumpOnError = .ok (m, out) ∧
      m.Offsets.Sorted (· < ·) ∧
      (∀ i, i ∈ m.Offsets ↔ i < inBuf.length ∧ inBuf[i]? ≠ expected[i]?) ∧
      (m.HasErrors = true ↔ ∃ i, i < inBuf.length ∧ inBuf[i]? ≠ expected[i]?) ∧
      (inBuf = expected → m.Offsets = [] ∧ m.HasErrors = false) :=
  datautil.MatchWithErrors_report inBuf expected dumpOnError hlen

/-- Witness of C1: two buffers of length 4 that differ at the indices 1 and 3. -/
theorem MatchWithErrors_equal_length_witness :
    ∃ m out, MatchWithErrors [1, 2, 3, 4] [1, 7, 3, 9] true = .ok (m, out) ∧
      m.Offsets.Sorted (· < ·) ∧
      (∀ i, i ∈ m.Offsets ↔
        i < [(1 : Byte), 2, 3, 4].length ∧ [(1 : Byte), 2, 3, 4][i]? ≠ [(1 : Byte), 7, 3, 9][i]?) ∧
      (m.HasErrors = true ↔
        ∃ i, i < [(1 : Byte), 2, 3, 4].length ∧
          [(1 : Byte), 2, 3, 4][i]? ≠ [(1 : Byte), 7, 3, 9][i]?) ∧
      ([(1 : Byte), 2, 3, 4] = [(1 : Byte), 7, 3, 9] → m.Offsets = [] ∧ m.HasErrors = false) :=
  MatchWithErrors_equal_length [1, 2, 3, 4] [1, 7, 3, 9] true (by decide)

/-- **C4.** At `in = [1, 2]` and `expected = [1, 2, 3]`, whose lengths differ,
`MatchWithErrors` writes the length error, treats the comparison as invalid (with
`dumpOnError` it writes the dump) and returns a report with no offset, whose
`HasErrors()` is false: the length mismatch does not reach `HasErrors()`. -/
theorem HasErrors_misses_length_mismatch :
    MatchWithErrors [1, 2] [1, 2, 3] true =
        .ok (⟨[]⟩, [.lengthError 2 3, .dump [1, 2] [1, 2, 3]]) ∧
      (MismatchDetails.mk []).HasErrors = false ∧
      [(1 : Byte), 2].length ≠ [(1 : Byte), 2, 3].length :=
  ⟨rfl, rfl, by decide⟩

/-- **C5.** When `in` is longer than `expected`, `MatchWithErrors` does not complete:
its loop reads `expected[len(expected)]` and panics with an index out of range, so no
report is returned. -/
theorem MatchWithErrors_longer_in (inBuf expected : List Byte) (dumpOnError : Bool)
    (h : expected.length < inBuf.length) :
    MatchWithErrors inBuf expected dumpOnError =
      .error (.indexOutOfRange expected.length expected.length) := by
  have key := forRange_error (matchBody inBuf expected) (fun _ _ => True)
    (.indexOutOfRange expected.length expected.length) expected.length
    inBuf.length 0 (datautil.matchStart inBuf expected) trivial (Nat.zero_le _) (by omega)
    (by
      intro j st _ hj _
      have hj1 : j < inBuf.length := by omega
      have e1 : inBuf[j]? = some inBuf[j] := List.getElem?_eq_getElem hj1
      have e2 : expected[j]? = some expected[j] := List.getElem?_eq_getElem hj
      simp only [matchBody, index_ok inBuf j _ e1, index_ok expected j _ e2]
      by_cases hne : inBuf[j] = expected[j]
      · exact ⟨st, by simp [hne], trivial⟩
      · exact ⟨_, by simp [hne]; rfl, trivial⟩)
    (by
      intro st _
      have e1 : inBuf[expected.length]? = some inBuf[expected.length] :=
        List.getElem?_eq_getElem h
      simp only [matchBody, index_ok inBuf _ _ e1,
        index_error expected expected.length (Nat.le_refl _)])
  unfold MatchWithErrors
  rw [key]

/-- Witness of C5: a received buffer of one byte against an empty expected buffer. -/
theorem MatchWithErrors_longer_in_witness :
    ([] : List Byte).length < [(0 : Byte)].length ∧
      MatchWithErrors [0] [] false = .error (.indexOutOfRange 0 0) :=
  ⟨by decide, MatchWithErrors_longer_in [0] [] false (by decide)⟩

/-- **C2.** For every seed and every sequence of fill lengths, two fillers built with
`NewRandomFiller(seed)` and given `Fill` calls on buffers of these lengths, whatever the
buffers held before, produce the same bytes on every call and end in the same state. In
particular the fillers of the TCP client and of the TCP server connection, both seeded
with `patternSeed`, generate the same bytes: call for call when the server's reads have
the lengths of the client's writes, and as one stream when the writes of
`maxPacketLength` bytes arrive in reads of other lengths. -/
theorem fill_deterministic (R : RandSource) (seed : Int) (bufs1 bufs2 : List (List Byte))
    (h : bufs1.map List.length = bufs2.map List.length) :
    (fillCalls (NewRandomFiller R seed) bufs1).1 =
        (fillCalls (NewRandomFiller R seed) bufs2).1 ∧
      (fillCalls (NewRandomFiller R seed) bufs1).2.rng =
        (fillCalls (NewRandomFiller R seed) bufs2).2.rng ∧
      (fillCalls (NewRandomFiller R tcpcorrupt.patternSeed) bufs1).1 =
        (fillCalls (NewRandomFiller R tcpcorrupt.patternSeed) bufs2).1 ∧
      (∀ writes reads : List (List Byte),
        (∀ w, w ∈ writes → w.length = tcpcorrupt.maxPacketLength) →
        (reads.map List.length).sum = (writes.map List.length).sum →
        (fillCalls (NewRandomFiller R tcpcorrupt.patternSeed) reads).1.flatten =
          (fillCalls (NewRandomFiller R tcpcorrupt.patternSeed) writes).1.flatten) := by
  rw [datautil.fillCalls_congr bufs1 bufs2 _ h, datautil.fillCalls_congr bufs1 bufs2 _ h]
  refine ⟨rfl, rfl, rfl, ?_⟩
  intro writes reads _ hsum
  rw [(datautil.fillCalls_flatten reads _).1, (datautil.fillCalls_flatten writes _).1, hsum]

/-- Witness of C2: three calls with lengths 2, 0 and 3 on buffers of different contents. -/
theorem fill_deterministic_witness :
    (fillCalls (NewRandomFiller lcg 42) [[0, 0], [], [1, 2, 3]]).1 =
        (fillCalls (NewRandomFiller lcg 42) [[9, 8], [], [7, 7, 7]]).1 ∧
      (fillCalls (NewRandomFiller lcg 42) [[0, 0], [], [1, 2, 3]]).2.rng =
        (fillCalls (NewRandomFiller lcg 42) [[9, 8], [], [7, 7, 7]]).2.rng ∧
      (fillCalls (NewRandomFiller lcg tcpcorrupt.patternSeed) [[0, 0], [], [1, 2, 3]]).1 =
        (fillCalls (NewRandomFiller lcg tcpcorrupt.patternSeed) [[9, 8], [], [7, 7, 7]]).1 :=
  ⟨(fill_deterministic lcg 42 [[0, 0], [], [1, 2, 3]] [[9, 8], [], [7, 7, 7]]
      (by decide)).1,
    (fill_deterministic lcg 42 [[0, 0], [], [1, 2, 3]] [[9, 8], [], [7, 7, 7]]
      (by decide)).2.1,
    (fill_deterministic lcg 42 [[0, 0], [], [1, 2, 3]] [[9, 8], [], [7, 7, 7]]
      (by decide)).2.2.1⟩

/-- **C3.** `Fill` overwrites every byte of its buffer with the next bytes of the
generator and makes exactly `len(buf)` calls of `Int31`: a `Fill` of a buffer of length
`a` followed by a `Fill` of a buffer of length `b` with the same filler gives,
concatenated, the bytes of one `Fill` of a buffer of length `a + b` with a fresh filler of
the same seed, and leaves the generator in the same state. -/
theorem fill_split (R : RandSource) (seed : Int) (bufA bufB bufAB : List Byte)
    (h : bufAB.length = bufA.length + bufB.length) :
    ((NewRandomFiller R seed).Fill bufA).1 ++
          (((NewRandomFiller R seed).Fill bufA).2.Fill bufB).1 =
        ((NewRandomFiller R seed).Fill bufAB).1 ∧
      (((NewRandomFiller R seed).Fill bufA).2.Fill bufB).2.rng =
        ((NewRandomFiller R seed).Fill bufAB).2.rng ∧
      ((NewRandomFiller R seed).Fill bufA).1.length = bufA.length ∧
      (∀ i, i < bufA.length → ((NewRandomFiller R seed).Fill bufA).1[i]? =
        some (R.byteAt (NewRandomFiller R seed).rng i)) ∧
      ((NewRandomFiller R seed).Fill bufA).2.rng =
        R.advance (NewRandomFiller R seed).rng bufA.length := by
  simp only [RandomFiller.Fill_eq, h]
  refine ⟨?_, ?_, ?_, ?_, trivial⟩
  · rw [List.range_add, List.map_append, List.map_map]
    congr 1
    apply List.map_congr_left
    intro k _
    simp only [List.length_map, List.length_range, Function.comp]
    exact RandSource.byteAt_advance R _ _ k
  · exact RandSource.advance_add R _ _ _
  · simp
  · intro i hi
    rw [List.getElem?_map, List.getElem?_range hi]
    rfl

/-- Witness of C3: lengths 2 and 3, against one buffer of length 5. -/
theorem fill_split_witness :
    ((NewRandomFiller lcg 7).Fill [0, 0]).1 ++
          (((NewRandomFiller lcg 7).Fill [0, 0]).2.Fill [1, 1, 1]).1 =
        ((NewRandomFiller lcg 7).Fill [2, 2, 2, 2, 2]).1 ∧
      (((NewRandomFiller lcg 7).Fill [0, 0]).2.Fill [1, 1, 1]).2.rng =
        ((NewRandomFiller lcg 7).Fill [2, 2, 2, 2, 2]).2.rng ∧
      ((NewRandomFiller lcg 7).Fill [0, 0]).1.length = [(0 : Byte), 0].length ∧
      (∀ i, i < [(0 : Byte), 0].length → ((NewRandomFiller lcg 7).Fill [0, 0]).1[i]? =
        some (lcg.byteAt (NewRandomFiller lcg 7).rng i)) ∧
      ((NewRandomFiller lcg 7).Fill [0, 0]).2.rng =
        lcg.advance (NewRandomFiller lcg 7).rng [(0 : Byte), 0].length :=
  fill_split lcg 7 [0, 0] [1, 1, 1] [2, 2, 2, 2, 2] (by decide)

/-- The report of the echo client for two buffers of equal length: the offsets, in
ascending order, of the bytes that differ. -/
theorem echo_report (inBuf outBuf : List Byte) (hlen : inBuf.length = outBuf.length) :
    ∃ m lines, MatchWithErrors inBuf outBuf false = .ok (m, lines) ∧
      m.Offsets.Pairwise (· < ·) ∧
      (∀ o, o ∈ m.Offsets → o < outBuf.length ∧ o < inBuf.length) ∧
      (∀ o, o ∈ m.Offsets ↔ o < inBuf.length ∧ inBuf.getD o 0 ≠ outBuf.getD o 0) ∧
      (m.HasErrors = true ↔ ∃ o, o < inBuf.length ∧ inBuf.getD o 0 ≠ outBuf.getD o 0) := by
  obtain ⟨m, lines, h1, h2, h3, h4, _⟩ :=
    datautil.MatchWithErrors_report inBuf outBuf false hlen
  have hiff : ∀ o, (o < inBuf.length ∧ inBuf[o]? ≠ outBuf[o]?) ↔
      (o < inBuf.length ∧ inBuf.getD o 0 ≠ outBuf.getD o 0) := by
    intro o
    constructor
    · intro ⟨ho, hd⟩
      exact ⟨ho, (udpecho.differ_iff inBuf outBuf o ho (by omega)).1 hd⟩
    · intro ⟨ho, hd⟩
      exact ⟨ho, (udpecho.differ_iff inBuf outBuf o ho (by omega)).2 hd⟩
  refine ⟨m, lines, h1, h2, ?_, ?_, ?_⟩
  · intro o ho
    have := ((h3 o).1 ho).1
    exact ⟨by omega, this⟩
  · intro o
    rw [h3 o]
    exact hiff o
  · rw [h4]
    constructor
    · intro ⟨o, ho⟩
      exact ⟨o, (hiff o).1 ho⟩
    · intro ⟨o, ho⟩
      exact ⟨o, (hiff o).2 ho⟩

/-- **C6.** For a sent buffer `outBuf` and a received buffer `inBuf` of equal length that
differ somewhere, the report has errors and the classification loop of the echo client
accepts (the check does not abort) exactly when every differing offset `o` has
`o mod 16 = 7` and `inBuf[o] = outBuf[o] & ^0x04`, in which case
`outBuf[o] XOR inBuf[o] = 0x04`; at the lowest differing offset that breaks a condition it
aborts, with `special address offset!` when the position condition is broken and with
`different kind of corruption` when only the bit condition is. -/
theorem classify_known_signature (config : udpecho.configuration) (errors totalPackets : Int)
    (inBuf outBuf : List Byte) (hlen : inBuf.length = outBuf.length)
    (hdiff : inBuf ≠ outBuf) :
    ∃ m lines, MatchWithErrors inBuf outBuf false = .ok (m, lines) ∧ m.HasErrors = true ∧
      bitNot 4 = 0xFB ∧
      (udpecho.classify outBuf inBuf m.Offsets = .ok () ↔
        ∀ o, o < inBuf.length → inBuf.getD o 0 ≠ outBuf.getD o 0 →
          o % 16 = 7 ∧ inBuf.getD o 0 = outBuf.getD o 0 &&& bitNot 4) ∧
      ((∀ p, (udpecho.checkEcho config errors totalPackets inBuf outBuf).1 ≠ .abort p) ↔
        ∀ o, o < inBuf.length → inBuf.getD o 0 ≠ outBuf.getD o 0 →
          o % 16 = 7 ∧ inBuf.getD o 0 = outBuf.getD o 0 &&& bitNot 4) ∧
      (∀ o, o < inBuf.length → inBuf.getD o 0 ≠ outBuf.getD o 0 →
        inBuf.getD o 0 = outBuf.getD o 0 &&& bitNot 4 →
        outBuf.getD o 0 ^^^ inBuf.getD o 0 = 0x04) ∧
      (∀ o, o < inBuf.length → inBuf.getD o 0 ≠ outBuf.getD o 0 →
        ¬ (o % 16 = 7 ∧ inBuf.getD o 0 = outBuf.getD o 0 &&& bitNot 4) →
        (∀ o', o' < o → inBuf.getD o' 0 ≠ outBuf.getD o' 0 →
          o' % 16 = 7 ∧ inBuf.getD o' 0 = outBuf.getD o' 0 &&& bitNot 4) →
        (o % 16 ≠ 7 →
          udpecho.classify outBuf inBuf m.Offsets = .error .specialAddressOffset ∧
          (udpecho.checkEcho config errors totalPackets inBuf outBuf).1 =
            .abort .specialAddressOffset) ∧
        (o % 16 = 7 →
          udpecho.classify outBuf inBuf m.Offsets =
            .error (.differentKindOfCorruption o (outBuf.getD o 0) (inBuf.getD o 0)) ∧
          (udpecho.checkEcho config errors totalPackets inBuf outBuf).1 =
            .abort (.differentKindOfCorruption o (outBuf.getD o 0) (inBuf.getD o 0)))) := by
  obtain ⟨m, lines, h1, h2, h3, h4, h5⟩ := echo_report inBuf outBuf hlen
  have he : m.HasErrors = true := by
    rw [h5]
    by_contra hno
    apply hdiff
    apply List.ext_getElem?
    intro k
    by_cases hk : k < inBuf.length
    · by_contra hne
      exact hno ⟨k, hk, (udpecho.differ_iff inBuf outBuf k hk (by omega)).1 hne⟩
    · rw [List.getElem?_eq_none (by omega), List.getElem?_eq_none (by omega)]
  obtain ⟨hab, hok⟩ := udpecho.checkEcho_of_report config errors totalPackets inBuf outBuf
    m lines h1 he
  have hiff : udpecho.classify outBuf inBuf m.Offsets = .ok () ↔
      ∀ o, o < inBuf.length → inBuf.getD o 0 ≠ outBuf.getD o 0 →
        o % 16 = 7 ∧ inBuf.getD o 0 = outBuf.getD o 0 &&& bitNot 4 := by
    rw [udpecho.classify_ok_iff outBuf inBuf m.Offsets h3]
    constructor
    · intro h o ho hd
      exact h o ((h4 o).2 ⟨ho, hd⟩)
    · intro h o ho
      exact h o ((h4 o).1 ho).1 ((h4 o).1 ho).2
  have hfirst : ∀ o, o < inBuf.length → inBuf.getD o 0 ≠ outBuf.getD o 0 →
      ¬ (o % 16 = 7 ∧ inBuf.getD o 0 = outBuf.getD o 0 &&& bitNot 4) →
      (∀ o', o' < o → inBuf.getD o' 0 ≠ outBuf.getD o' 0 →
        o' % 16 = 7 ∧ inBuf.getD o' 0 = outBuf.getD o' 0 &&& bitNot 4) →
      udpecho.classify outBuf inBuf m.Offsets =
        if o % 16 ≠ 7 then .error .specialAddressOffset
        else .error (.differentKindOfCorruption o (outBuf.getD o 0) (inBuf.getD o 0)) := by
    intro o ho hd hv hb
    exact udpecho.classify_first_violation outBuf inBuf m.Offsets h3 h2 o
      ((h4 o).2 ⟨ho, hd⟩) hv (fun x hx hlt => hb x hlt ((h4 x).1 hx).2)
  refine ⟨m, lines, h1, he, by decide, hiff, ?_, ?_, ?_⟩
  · rw [← hiff]
    constructor
    · intro hne
      cases hc : udpecho.classify outBuf inBuf m.Offsets with
      | error e => exact absurd (hab e hc) (hne e)
      | ok u => rfl
    · intro hc p hp
      rw [hok hc] at hp
      split at hp <;> cases hp
  · intro o _ hd hb
    have hs : outBuf.getD o 0 &&& bitNot 4 ≠ outBuf.getD o 0 := fun e => hd (hb.trans e)
    rw [hb]
    exact udpecho.xor_of_cleared _ hs
  · intro o ho hd hv hb
    have hc := hfirst o ho hd hv hb
    constructor
    · intro h7
      rw [if_pos h7] at hc
      exact ⟨hc, hab _ hc⟩
    · intro h7
      rw [if_neg (not_not.mpr h7)] at hc
      exact ⟨hc, hab _ hc⟩

/-- Witness of C6: a packet of 24 bytes received with bit 2 of the byte at offset 7
cleared. -/
theorem classify_known_signature_witness :
    ∃ m lines,
      MatchWithErrors (List.replicate 7 0xFF ++ [0xFB] ++ List.replicate 16 0xFF)
        (List.replicate 24 0xFF) false = .ok (m, lines) ∧
      m.HasErrors = true ∧
      udpecho.classify (List.replicate 24 0xFF)
        (List.replicate 7 0xFF ++ [0xFB] ++ List.replicate 16 0xFF) m.Offsets = .ok () :=
  (classify_known_signature ⟨1000, 24, 10000⟩ 0 1
    (List.replicate 7 0xFF ++ [0xFB] ++ List.replicate 16 0xFF) (List.replicate 24 0xFF)
    (by decide) (by decide)).elim
    (fun m hm => hm.elim (fun lines h =>
      ⟨m, lines, h.1, h.2.1, h.2.2.2.1.2 (by decide)⟩))

/-- Counterexample to C7: a sent buffer of 24 bytes with `0x04` at offset 23 and a
received buffer that differs from it only there, holding `0x00`; `23 mod 16 = 7` and the
byte is the sent byte with bit 2 cleared, so the check does not abort: the error is
counted and the loop continues. -/
theorem echo_offset_23_counted :
    23 < (List.replicate 23 (0 : Byte) ++ [4]).length ∧
      (List.replicate 24 (0 : Byte)).length = (List.replicate 23 (0 : Byte) ++ [4]).length ∧
      (List.replicate 24 (0 : Byte)).take 23 = (List.replicate 23 (0 : Byte) ++ [4]).take 23 ∧
      (List.replicate 24 (0 : Byte)).drop 24 = (List.replicate 23 (0 : Byte) ++ [4]).drop 24 ∧
      (List.replicate 24 (0 : Byte))[23]? ≠ (List.replicate 23 (0 : Byte) ++ [4])[23]? ∧
      23 % 16 = 7 ∧
      (udpecho.checkEcho ⟨1000, 24, 10000⟩ 0 1 (List.replicate 24 0)
        (List.replicate 23 0 ++ [4])).1 = .proceed 1 := by
  refine ⟨by decide, by decide, by decide, by decide, by decide, by decide, ?_⟩
  rfl

/-- **C7 (amended).** For a sent buffer longer than 23 bytes and a received buffer of the
same length that differs from it only in the byte at offset 23, the check of the echo
client aborts exactly when `inBuf[23]` is not `outBuf[23] & ^0x04`, and then with
`different kind of corruption` at offset 23; when `inBuf[23] = outBuf[23] & ^0x04` the
packet is a counted error, after which the loop continues or, at the error limit,
returns. -/
theorem echo_offset_23 (config : udpecho.configuration) (errors totalPackets : Int)
    (inBuf outBuf : List Byte) (hlen : inBuf.length = outBuf.length)
    (h23 : 23 < outBuf.length)
    (hdiff : inBuf.getD 23 0 ≠ outBuf.getD 23 0)
    (hsame : ∀ i, i ≠ 23 → inBuf.getD i 0 = outBuf.getD i 0) :
    (inBuf.getD 23 0 ≠ outBuf.getD 23 0 &&& bitNot 4 →
      (udpecho.checkEcho config errors totalPackets inBuf outBuf).1 =
        .abort (.differentKindOfCorruption 23 (outBuf.getD 23 0) (inBuf.getD 23 0))) ∧
    (inBuf.getD 23 0 = outBuf.getD 23 0 &&& bitNot 4 →
      (udpecho.checkEcho config errors totalPackets inBuf outBuf).1 =
        if wrapInt64 (errors + 1) ≥ config.errorLimit then
          .returnNil (wrapInt64 (errors + 1))
        else .proceed (wrapInt64 (errors + 1))) := by
  obtain ⟨m, lines, h1, h2, h3, h4, h5⟩ := echo_report inBuf outBuf hlen
  have he : m.HasErrors = true := h5.2 ⟨23, by omega, hdiff⟩
  obtain ⟨hab, hok⟩ := udpecho.checkEcho_of_report config errors totalPackets inBuf outBuf
    m lines h1 he
  have hmem : (23 : Nat) ∈ m.Offsets := (h4 23).2 ⟨by omega, hdiff⟩
  have honly : ∀ o, o ∈ m.Offsets → o = 23 := by
    intro o ho
    by_contra hne
    exact ((h4 o).1 ho).2 (hsame o hne)
  constructor
  · intro hb
    have hc := udpecho.classify_first_violation outBuf inBuf m.Offsets h3 h2 23 hmem
      (fun h => hb h.2) (fun o ho hlt => absurd (honly o ho) (by omega))
    rw [if_neg (by decide)] at hc
    exact hab _ hc
  · intro hb
    apply hok
    rw [udpecho.classify_ok_iff outBuf inBuf m.Offsets h3]
    intro o ho
    rw [honly o ho]
    exact ⟨by decide, hb⟩

/-- Witness of C7 (amended): the packet of the counterexample, with an error limit of
10000. -/
theorem echo_offset_23_witness :
    (udpecho.checkEcho ⟨1000, 24, 10000⟩ 0 1 (List.replicate 24 0)
        (List.replicate 23 0 ++ [4])).1 =
      if wrapInt64 (0 + 1) ≥ (10000 : Int) then
        .returnNil (wrapInt64 (0 + 1))
      else .proceed (wrapInt64 (0 + 1)) :=
  (echo_offset_23 ⟨1000, 24, 10000⟩ 0 1 (List.replicate 24 0) (List.replicate 23 0 ++ [4])
    (by decide) (by decide) (by decide)
    (by
      intro i hi
      by_cases h : i < 24
      · interval_cases i <;> first | rfl | exact absurd rfl hi
      · have h24 : 24 ≤ i := by omega
        rw [List.getD_eq_default _ _ (by simpa using h24),
          List.getD_eq_default _ _ (by simpa using h24)])).2 (by decide)

/-- **C9.** For every buffer and every configuration, so in particular with
`orMask = 0`, `fillWithPattern` returns and overwrites every byte of the buffer, whatever
it held: in sequence mode the byte at offset `i` is `i mod 256`, and in fixed-fill mode
with a non-empty pattern it is `expectedBytes[i mod len(expectedBytes)]`. -/
theorem fillWithPattern_modes (R : RandSource) (buf : List Byte) (conf : udpdata.config) :
    (conf.expectedMode = udpdata.modeSequence →
      ∃ out, udpdata.fillWithPattern R buf conf = .ok out ∧ out.length = buf.length ∧
        ∀ i, i < buf.length → ∃ b, out[i]? = some b ∧ b.val = i % 256) ∧
    (conf.expectedMode = udpdata.modeFill → conf.expectedBytes ≠ [] →
      ∃ out, udpdata.fillWithPattern R buf conf = .ok out ∧ out.length = buf.length ∧
        ∀ i, i < buf.length → ∃ b, out[i]? = some b ∧
          conf.expectedBytes[i % conf.expectedBytes.length]? = some b) := by
  constructor
  · intro hmode
    have hne : conf.expectedMode ≠ udpdata.modeRandom := by
      rw [hmode]
      decide
    refine ⟨(List.range buf.length).map toByte, ?_, by simp, ?_⟩
    · simp only [udpdata.fillWithPattern, hne, if_false]
      exact udpdata.sequence_loop conf buf hmode
    · intro i hi
      refine ⟨toByte i, ?_, rfl⟩
      rw [List.getElem?_map, List.getElem?_range hi]
      rfl
  · intro hmode hpat
    have hne : conf.expectedMode ≠ udpdata.modeRandom := by
      rw [hmode]
      decide
    refine ⟨(List.range buf.length).map
      (fun i => conf.expectedBytes.getD (i % conf.expectedBytes.length) 0), ?_, by simp, ?_⟩
    · simp only [udpdata.fillWithPattern, hne, if_false]
      exact udpdata.pattern_loop conf buf hmode hpat
    · intro i hi
      have hlt : i % conf.expectedBytes.length < conf.expectedBytes.length :=
        Nat.mod_lt i (List.length_pos.2 hpat)
      refine ⟨conf.expectedBytes.getD (i % conf.expectedBytes.length) 0, ?_, ?_⟩
      · rw [List.getElem?_map, List.getElem?_range hi]
        rfl
      · simp [List.getD_eq_getElem?_getD, List.getElem?_eq_getElem hlt]

/-- Witness of C9: a buffer of five bytes and the pattern `a9 10`, with `orMask = 0`. -/
theorem fillWithPattern_modes_witness :
    ∃ out, udpdata.fillWithPattern lcg [9, 9, 9, 9, 9]
        ⟨udpdata.modeFill, 0, [0xa9, 0x10], false, true, false, 5, 0⟩ = .ok out ∧
      out.length = [(9 : Byte), 9, 9, 9, 9].length ∧
      ∀ i, i < [(9 : Byte), 9, 9, 9, 9].length → ∃ b, out[i]? = some b ∧
        ([0xa9, 0x10] : List Byte)[i % ([0xa9, 0x10] : List Byte).length]? = some b :=
  (fillWithPattern_modes lcg [9, 9, 9, 9, 9]
    ⟨udpdata.modeFill, 0, [0xa9, 0x10], false, true, false, 5, 0⟩).2 rfl (by decide)

/-- **C10.** In sequence mode and in fixed-fill mode `fillWithPattern` does not apply
`orMask`: with the mask `0x80` a buffer of two bytes becomes `00 01` in sequence mode and
`01 01` with the pattern `01`, bytes in which the bit of the mask is clear; in random
mode the same mask is applied. -/
theorem orMask_not_applied (R : RandSource) :
    udpdata.fillWithPattern R [0, 0]
        ⟨udpdata.modeSequence, 0, [], false, true, false, 2, 0x80⟩ = .ok [0x00, 0x01] ∧
      udpdata.fillWithPattern R [0, 0]
        ⟨udpdata.modeFill, 0, [0x01], false, true, false, 2, 0x80⟩ = .ok [0x01, 0x01] ∧
      (0x00 : Byte) &&& 0x80 ≠ 0x80 ∧ (0x01 : Byte) &&& 0x80 ≠ 0x80 ∧
      udpdata.fillWithPattern lcg [0, 0]
        ⟨udpdata.modeRandom, 5, [], false, true, false, 2, 0⟩ = .ok [0x5a, 0x8b] ∧
      udpdata.fillWithPattern lcg [0, 0]
        ⟨udpdata.modeRandom, 5, [], false, true, false, 2, 0x80⟩ = .ok [0xda, 0x8b] :=
  ⟨rfl, rfl, by decide, by decide, rfl, rfl⟩

/-! ## packetTimer -/

/-- A result inside the range of a 64-bit integer is not changed by the wrap-around. -/
theorem wrapInt64_eq (x : Int) (h1 : -(2 ^ 63) ≤ x) (h2 : x < 2 ^ 63) : wrapInt64 x = x := by
  unfold wrapInt64
  omega

/-- One call of `increment` without overflow, when `packets` is `n mod 60000`: the total
grows by one; at a multiple of 60000 one line with 60000 packets and the bytes of the
window is written and the window is reset; otherwise the window grows and nothing is
written. -/
theorem packetTimer.increment_step (now : Nat → Int) (st : packetTimer × TimerWorld)
    (b : Int) (n : Nat) (hr : packetTimer.inRange st.1 b)
    (hp : st.1.packets = ((n % 60000 : Nat) : Int)) :
    (packetTimer.increment now st b).1.totalPackets = st.1.totalPackets + 1 ∧
    ((n + 1) % 60000 = 0 →
      (packetTimer.increment now st b).1.packets = 0 ∧
      (packetTimer.increment now st b).1.bytes = 0 ∧
      ∃ e, (packetTimer.increment now st b).2.out =
        st.2.out ++ [⟨60000, st.1.bytes + b, e⟩]) ∧
    ((n + 1) % 60000 ≠ 0 →
      (packetTimer.increment now st b).1.packets = (((n + 1) % 60000 : Nat) : Int) ∧
      (packetTimer.increment now st b).1.bytes = st.1.bytes + b ∧
      (packetTimer.increment now st b).2.out = st.2.out) := by
  obtain ⟨⟨h1, h2⟩, ⟨h3, h4⟩, ⟨h5, h6⟩⟩ := hr
  have w1 := wrapInt64_eq _ h1 h2
  have w2 := wrapInt64_eq _ h3 h4
  have w3 := wrapInt64_eq _ h5 h6
  have hnn : (0 : Int) ≤ st.1.packets + 1 := by omega
  have ht : (st.1.packets + 1).tmod packetPrint = (st.1.packets + 1) % 60000 := by
    rw [Int.tmod_eq_emod hnn (by decide)]
    rfl
  unfold packetTimer.increment
  simp only [w1, w2, w3, ht]
  by_cases hz : (n + 1) % 60000 = 0
  · have hc : (st.1.packets + 1) % 60000 = 0 := by omega
    have hv : st.1.packets + 1 = 60000 := by omega
    rw [if_pos hc]
    refine ⟨rfl, fun _ => ⟨rfl, rfl, ?_⟩, fun h => absurd hz h⟩
    rw [hv]
    exact ⟨_, rfl⟩
  · have hc : ¬ (st.1.packets + 1) % 60000 = 0 := by omega
    have hv : st.1.packets + 1 = (((n + 1) % 60000 : Nat) : Int) := by omega
    rw [if_neg hc]
    exact ⟨rfl, fun h => absurd h hz, fun _ => ⟨hv, rfl, rfl⟩⟩

/-- The calls of a sequence followed by one more call. -/
theorem packetTimer.run_append (now : Nat → Int) (st : packetTimer × TimerWorld)
    (bs : List Int) (b : Int) :
    packetTimer.run now st (bs ++ [b]) =
      packetTimer.increment now (packetTimer.run now st bs) b := by
  simp [packetTimer.run, List.foldl_append]

/-- No overflow in a sequence of calls: none in its first part, and none in the rest
from the state the first part leaves. -/
theorem packetTimer.noOverflow_append (now : Nat → Int) :
    ∀ (bs rest : List Int) (st : packetTimer × TimerWorld),
      packetTimer.noOverflow now st (bs ++ rest) ↔
        packetTimer.noOverflow now st bs ∧
          packetTimer.noOverflow now (packetTimer.run now st bs) rest := by
  intro bs
  induction bs with
  | nil =>
    intro rest st
    simp [packetTimer.noOverflow, packetTimer.run]
  | cons a t ih =>
    intro rest st
    show (packetTimer.inRange st.1 a ∧
        packetTimer.noOverflow now (packetTimer.increment now st a) (t ++ rest)) ↔
      (packetTimer.inRange st.1 a ∧
        packetTimer.noOverflow now (packetTimer.increment now st a) t) ∧
        packetTimer.noOverflow now
          (packetTimer.run now (packetTimer.increment now st a) t) rest
    rw [ih, and_assoc]

/-- The counters after any sequence of calls without overflow from the zero value. -/
theorem packetTimer.run_invariant (now : Nat → Int) (calls : List Int)
    (hov : packetTimer.noOverflow now packetTimer.zero calls) :
    (packetTimer.run now packetTimer.zero calls).1.totalPackets = (calls.length : Int) ∧
    (packetTimer.run now packetTimer.zero calls).1.packets =
      ((calls.length % 60000 : Nat) : Int) ∧
    (packetTimer.run now packetTimer.zero calls).1.bytes =
      (calls.drop (calls.length - calls.length % 60000)).sum ∧
    (packetTimer.run now packetTimer.zero calls).2.out.length = calls.length / 60000 := by
  induction calls using List.reverseRecOn with
  | nil => exact ⟨rfl, rfl, rfl, rfl⟩
  | append_singleton bs b ih =>
    rw [packetTimer.noOverflow_append] at hov
    obtain ⟨i1, i2, i3, i4⟩ := ih hov.1
    have hr : packetTimer.inRange (packetTimer.run now packetTimer.zero bs).1 b := hov.2.1
    obtain ⟨s1, s2, s3⟩ := packetTimer.increment_step now _ b bs.length hr i2
    rw [packetTimer.run_append]
    have hlen : (bs ++ [b]).length = bs.length + 1 := by simp
    rw [hlen]
    by_cases hz : (bs.length + 1) % 60000 = 0
    · obtain ⟨t1, t2, e, t3⟩ := s2 hz
      refine ⟨by rw [s1, i1]; push_cast; rfl, by rw [t1, hz]; rfl, ?_, ?_⟩
      · rw [t2, hz, Nat.sub_zero, ← hlen, List.drop_length]
        rfl
      · rw [t3, List.length_append, i4]
        simp only [List.length_singleton]
        omega
    · obtain ⟨t1, t2, t3⟩ := s3 hz
      refine ⟨by rw [s1, i1]; push_cast; rfl, t1, ?_, ?_⟩
      · have e : bs.length + 1 - (bs.length + 1) % 60000 = bs.length - bs.length % 60000 := by
          omega
        rw [t2, i3, e, List.drop_append_of_le_length (Nat.sub_le _ _), List.sum_append]
        simp
      · rw [t3, i4]
        omega

/-- A sequence of calls with non-negative byte counts whose number and whose byte total
stay below `2^63` is free of overflow. -/
theorem packetTimer.noOverflow_of_bounds (now : Nat → Int) (calls : List Int)
    (hnn : ∀ b, b ∈ calls → 0 ≤ b) (hlen : (calls.length : Int) < 2 ^ 63)
    (hsum : calls.sum < 2 ^ 63) :
    packetTimer.noOverflow now packetTimer.zero calls := by
  induction calls using List.reverseRecOn with
  | nil => trivial
  | append_singleton bs b ih =>
    have hb : 0 ≤ b := hnn b (by simp)
    have hbs : ∀ x, x ∈ bs → 0 ≤ x := fun x hx => hnn x (by simp [hx])
    have hs0 : 0 ≤ bs.sum := List.sum_nonneg hbs
    have hl : (bs ++ [b]).length = bs.length + 1 := by simp
    have hsum' : bs.sum + b < 2 ^ 63 := by simpa using hsum
    rw [hl] at hlen
    push_cast at hlen
    have hprev := ih hbs (by omega) (by omega)
    obtain ⟨i1, i2, i3, _⟩ := packetTimer.run_invariant now bs hprev
    rw [packetTimer.noOverflow_append]
    refine ⟨hprev, ?_, trivial⟩
    have hd0 : 0 ≤ (bs.drop (bs.length - bs.length % 60000)).sum :=
      List.sum_nonneg (fun x hx => hbs x (List.mem_of_mem_drop hx))
    have ht0 : 0 ≤ (bs.take (bs.length - bs.length % 60000)).sum :=
      List.sum_nonneg (fun x hx => hbs x (List.mem_of_mem_take hx))
    have hsplit : (bs.take (bs.length - bs.length % 60000)).sum +
        (bs.drop (bs.length - bs.length % 60000)).sum = bs.sum := by
      rw [← List.sum_append, List.take_append_drop]
    unfold packetTimer.inRange
    rw [i1, i2, i3]
    refine ⟨⟨by omega, by omega⟩, ⟨by omega, by omega⟩, ⟨by omega, by omega⟩⟩

/-- **C8.** From a zero-valued `packetTimer`, for any sequence of calls of `increment`
without integer overflow, after the first `k` calls: `totalPackets = k`,
`packets = k mod 60000`, `bytes` is the sum of the byte counts of the last
`k mod 60000` calls, and `floor(k / 60000)` statistics lines have been written; the call of
index `k + 1` writes one line (with 60000 packets and the bytes of the window) and leaves
`packets = 0` and `bytes = 0` when `k + 1` is a multiple of 60000, and writes nothing
otherwise; after exactly 60000 calls one line has been written, `packets = 0`,
`bytes = 0` and `totalPackets = 60000`. -/
theorem packetTimer_accounting (now : Nat → Int) (calls : List Int)
    (hov : packetTimer.noOverflow now packetTimer.zero calls) :
    (∀ k, k ≤ calls.length →
      (packetTimer.run now packetTimer.zero (calls.take k)).1.totalPackets = (k : Int) ∧
      (packetTimer.run now packetTimer.zero (calls.take k)).1.packets =
        ((k % 60000 : Nat) : Int) ∧
      (packetTimer.run now packetTimer.zero (calls.take k)).1.bytes =
        ((calls.take k).drop (k - k % 60000)).sum ∧
      (packetTimer.run now packetTimer.zero (calls.take k)).2.out.length = k / 60000) ∧
    (∀ k, k < calls.length →
      ((k + 1) % 60000 = 0 →
        (packetTimer.run now packetTimer.zero (calls.take (k + 1))).1.packets = 0 ∧
        (packetTimer.run now packetTimer.zero (calls.take (k + 1))).1.bytes = 0 ∧
        ∃ line, (packetTimer.run now packetTimer.zero (calls.take (k + 1))).2.out =
            (packetTimer.run now packetTimer.zero (calls.take k)).2.out ++ [line] ∧
          line.packets = 60000 ∧
          line.bytes = ((calls.take (k + 1)).drop (k + 1 - 60000)).sum) ∧
      ((k + 1) % 60000 ≠ 0 →
        (packetTimer.run now packetTimer.zero (calls.take (k + 1))).2.out =
          (packetTimer.run now packetTimer.zero (calls.take k)).2.out)) ∧
    (calls.length = 60000 →
      (packetTimer.run now packetTimer.zero calls).2.out.length = 1 ∧
      (packetTimer.run now packetTimer.zero calls).1.packets = 0 ∧
      (packetTimer.run now packetTimer.zero calls).1.bytes = 0 ∧
      (packetTimer.run now packetTimer.zero calls).1.totalPackets = 60000) := by
  have hpre : ∀ k, packetTimer.noOverflow now packetTimer.zero (calls.take k) := by
    intro k
    have h := hov
    rw [← List.take_append_drop k calls, packetTimer.noOverflow_append] at h
    exact h.1
  refine ⟨?_, ?_, ?_⟩
  · intro k hk
    have h := packetTimer.run_invariant now (calls.take k) (hpre k)
    have hl : (calls.take k).length = k := by simp [hk]
    rw [hl] at h
    exact h
  · intro k hk
    have hl : (calls.take k).length = k := by simp [Nat.le_of_lt hk]
    have hsucc : calls.take (k + 1) = calls.take k ++ [calls[k]] := by
      rw [List.take_succ, List.getElem?_eq_getElem hk]
      rfl
    obtain ⟨_, i2, i3, _⟩ := packetTimer.run_invariant now (calls.take k) (hpre k)
    rw [hl] at i2 i3
    have hov1 := hpre (k + 1)
    rw [hsucc, packetTimer.noOverflow_append] at hov1
    obtain ⟨_, s2, s3⟩ := packetTimer.increment_step now
      (packetTimer.run now packetTimer.zero (calls.take k)) calls[k] k hov1.2.1 i2
    rw [hsucc, packetTimer.run_append]
    constructor
    · intro hz
      obtain ⟨t1, t2, e, t3⟩ := s2 hz
      refine ⟨t1, t2, _, t3, rfl, ?_⟩
      have e1 : k + 1 - 60000 = k - k % 60000 := by omega
      have e2 : k - k % 60000 ≤ (calls.take k).length := by
        rw [hl]
        exact Nat.sub_le _ _
      rw [e1, List.drop_append_of_le_length e2, List.sum_append, i3]
      simp
    · intro hz
      exact (s3 hz).2.2
  · intro h6
    obtain ⟨i1, i2, i3, i4⟩ := packetTimer.run_invariant now calls hov
    rw [h6] at i1 i2 i3 i4
    refine ⟨i4, i2, ?_, i1⟩
    rw [i3, ← h6]
    simp

/-- Witness of C8: 60000 calls with 1472 bytes each. -/
theorem packetTimer_accounting_witness :
    (packetTimer.run (fun k => 1000 * k) packetTimer.zero
        (List.replicate 60000 1472)).2.out.length = 1 ∧
      (packetTimer.run (fun k => 1000 * k) packetTimer.zero
        (List.replicate 60000 1472)).1.packets = 0 ∧
      (packetTimer.run (fun k => 1000 * k) packetTimer.zero
        (List.replicate 60000 1472)).1.bytes = 0 ∧
      (packetTimer.run (fun k => 1000 * k) packetTimer.zero
        (List.replicate 60000 1472)).1.totalPackets = 60000 :=
  (packetTimer_accounting (fun k => 1000 * k) (List.replicate 60000 1472)
    (packetTimer.noOverflow_of_bounds _ _
      (fun b hb => by rw [List.eq_of_mem_replicate hb]; decide)
      (by rw [List.length_replicate]; decide)
      (by rw [List.sum_replicate]; decide))).2.2 (List.length_replicate 60000 1472)

end NetworkCorruption
